import Mathlib

/-!
# sweet-go/stdlib, package multimedia: image slicing and scaling

A shallow embedding of src/multimedia/image.go.

* Go int is modelled by Int. The products and quotients of ScaleUpImageByResolution are
  reduced to the 64-bit two's complement range, as Go's are (wrapInt); the sums and
  differences of the other functions are taken within the machine word. The Go operator / on
  int is Int.tdiv (it truncates toward zero) and a division by zero is a run-time panic,
  recorded as such.
* Go float64 is modelled by F64: binary64 data with the IEEE 754 round-to-nearest-even
  arithmetic that Go prescribes. The conversion int(f) truncates; for a value outside the
  int64 range, for an infinity and for NaN it yields -2^63, the result of CVTTSD2SI on amd64.
* The collaborators of the package (decoder, encoder, resampler, drawing context, path
  cleaning) are parameters of the model; every call that reaches them is recorded in a trace.
-/

namespace Multimedia

/-! ## binary64 -/

/-- Floor of the binary logarithm, by halving; fuel n is enough for n. -/
def log2Fuel : Nat → Nat → Nat
  | 0, _ => 0
  | fuel + 1, n => if n < 2 then 0 else log2Fuel fuel (n / 2) + 1

/-- Floor of the binary logarithm of a positive number. -/
def ilog2 (n : Nat) : Nat := log2Fuel n n

/-- A binary64 datum: the finite value (-1)^neg * mant * 2^exp, an infinity, or NaN. -/
inductive F64 where
  | fin (neg : Bool) (mant : Nat) (exp : Int)
  | inf (neg : Bool)
  | nan
  deriving DecidableEq, Repr

/-- The quotient num / den rounded to the nearest integer, ties to even. -/
def roundHalfEven (num den : Nat) : Nat :=
  let k := num / den
  let r := num % den
  if 2 * r < den then k
  else if den < 2 * r then k + 1
  else if k % 2 = 0 then k else k + 1

/-- The exponent floor(log2 (a / b)) of a positive ratio. -/
def binExp (a b : Nat) : Int :=
  let e0 : Int := (ilog2 a : Int) - (ilog2 b : Int)
  let ge : Bool :=
    if 0 ≤ e0 then decide (b * 2 ^ e0.toNat ≤ a) else decide (b ≤ a * 2 ^ (-e0).toNat)
  if ge then e0 else e0 - 1

/-- The exponent of the last place of the binary64 nearest a / b: 52 below the exponent of the
ratio, and never below that of the subnormals. -/
def roundExp (a b : Nat) : Int := max (binExp a b) (-1022) - 52

/-- The ratio a / b in units of 2^p, rounded to the nearest integer, ties to even. -/
def roundMant (a b : Nat) (p : Int) : Nat :=
  if 0 ≤ p then roundHalfEven a (b * 2 ^ p.toNat) else roundHalfEven (a * 2 ^ (-p).toNat) b

/-- The ratio a / b (with b positive) rounded to binary64, round-to-nearest-even:
53 significant bits, exponents no smaller than that of the subnormals, overflow to infinity. -/
def roundRatio (neg : Bool) (a b : Nat) : F64 :=
  if a = 0 then .fin neg 0 0
  else if 971 ≤ roundExp a b ∧
      2 ^ 53 * 2 ^ 971 ≤ roundMant a b (roundExp a b) * 2 ^ (roundExp a b).toNat then
    .inf neg
  else .fin neg (roundMant a b (roundExp a b)) (roundExp a b)

/-- The conversion float64(n) of an int. -/
def F64.ofInt (n : Int) : F64 := roundRatio (decide (n < 0)) n.natAbs 1

/-- The float64 quotient x / y. -/
def F64.div : F64 → F64 → F64
  | .nan, _ => .nan
  | _, .nan => .nan
  | .inf _, .inf _ => .nan
  | .inf s, .fin t _ _ => .inf (s != t)
  | .fin s _ _, .inf t => .fin (s != t) 0 0
  | .fin s m e, .fin t n f =>
    if n = 0 then (if m = 0 then .nan else .inf (s != t))
    else if 0 ≤ e - f then roundRatio (s != t) (m * 2 ^ (e - f).toNat) n
    else roundRatio (s != t) m (n * 2 ^ (f - e).toNat)

/-- The float64 product x * y. -/
def F64.mul : F64 → F64 → F64
  | .nan, _ => .nan
  | _, .nan => .nan
  | .inf s, .inf t => .inf (s != t)
  | .inf s, .fin t n _ => if n = 0 then .nan else .inf (s != t)
  | .fin s m _, .inf t => if m = 0 then .nan else .inf (s != t)
  | .fin s m e, .fin t n f =>
    if 0 ≤ e + f then roundRatio (s != t) (m * n * 2 ^ (e + f).toNat) 1
    else roundRatio (s != t) (m * n) (2 ^ (-(e + f)).toNat)

/-- The conversion int(f): truncation toward zero; -2^63 when the value does not fit. -/
def F64.toInt : F64 → Int
  | .fin s m e =>
    let mag : Nat := if 0 ≤ e then m * 2 ^ e.toNat else m / 2 ^ (-e).toNat
    let v : Int := if s then -(mag : Int) else (mag : Int)
    if -(2 : Int) ^ 63 ≤ v ∧ v < (2 : Int) ^ 63 then v else -(2 : Int) ^ 63
  | _ => -(2 : Int) ^ 63

/-- The rational value of a finite datum. -/
def F64.toRat? : F64 → Option ℚ
  | .fin s m e => some ((if s then -1 else 1) * (m : ℚ) * (2 : ℚ) ^ e)
  | _ => none

/-- A finite datum that is strictly positive. -/
def F64.IsPos : F64 → Prop
  | .fin s m _ => s = false ∧ 0 < m
  | _ => False

/-- Two decimal digits of a number below 100. -/
def pad2 (n : Nat) : String :=
  if n < 10 then "0" ++ toString n else toString n

/-- The verb %.2f of fmt: the exact value rounded to two decimals, ties to even. -/
def F64.format2 : F64 → String
  | .nan => "NaN"
  | .inf s => if s then "-Inf" else "+Inf"
  | .fin s m e =>
    let n : Nat :=
      if 0 ≤ e then 100 * m * 2 ^ e.toNat else roundHalfEven (100 * m) (2 ^ (-e).toNat)
    (if s then "-" else "") ++ toString (n / 100) ++ "." ++ pad2 (n % 100)

/-! ## geometry and collaborators -/

/-- The type image.Rectangle: Min and Max corners. -/
structure Rectangle where
  minX : Int
  minY : Int
  maxX : Int
  maxY : Int
  deriving DecidableEq, Repr

/-- The constructor image.Rect: the corners are swapped where needed so that Min ≤ Max. -/
def imageRect (x0 y0 x1 y1 : Int) : Rectangle :=
  let (a0, a1) := if x0 > x1 then (x1, x0) else (x0, x1)
  let (b0, b1) := if y0 > y1 then (y1, y0) else (y0, y1)
  { minX := a0, minY := b0, maxX := a1, maxY := b1 }

/-- A decoded picture; only its bounds matter to this package. -/
structure Image where
  bounds : Rectangle
  deriving DecidableEq, Repr

/-- The method Bounds().Dx(). -/
def Image.Dx (img : Image) : Int := img.bounds.maxX - img.bounds.minX

/-- The method Bounds().Dy(). -/
def Image.Dy (img : Image) : Int := img.bounds.maxY - img.bounds.minY

/-- The picture of the given size with its corner at the origin. -/
def Image.ofSize (w h : Int) : Image := { bounds := { minX := 0, minY := 0, maxX := w, maxY := h } }

/-- A call made to a collaborator. -/
inductive Effect where
  | crop (r : Rectangle)
  | resize (width height : Int)
  | newContext (width height : Int)
  | clear
  | drawImage (x y : Int)
  | save (path : String)
  deriving DecidableEq, Repr

/-- The collaborators: the decoder, the encoder (its verdict may depend on every call made
before, the trace, and on the path) and the path cleaning done by filepath.Join. -/
structure Codec (ε : Type) where
  openImage : String → Except ε Image
  saveImage : List Effect → String → Option ε
  pathJoin : String → String

/-- How a call ended: nil, an error value, or a run-time panic. -/
inductive Status (ε : Type) where
  | ok
  | failed (err : ε)
  | panicked
  deriving DecidableEq, Repr

/-- The status of a value of type error. -/
def Status.ofError {ε : Type} : Option ε → Status ε
  | none => .ok
  | some err => .failed err

/-- The enumeration imaging.Format: its five constants. -/
inductive Format where
  | JPEG
  | PNG
  | GIF
  | TIFF
  | BMP
  deriving DecidableEq, Repr

/-- The lower-cased result of Format.String(). -/
def Format.lowerString : Format → String
  | .JPEG => "jpeg"
  | .PNG => "png"
  | .GIF => "gif"
  | .TIFF => "tiff"
  | .BMP => "bmp"

/-! ## SliceImage -/

/-- The record SliceImageInput. -/
structure SliceImageInput where
  SourcePath : String
  OutputDir : String
  MaxHeight : Int
  MinHeight : Int
  OutputFormat : Format
  AspectRatio : F64
  OutputFiles : List String

/-- The method OutputFileName: the format string "%s/%d.%s". -/
def SliceImageInput.OutputFileName (sii : SliceImageInput) (y : Int) : String :=
  sii.OutputDir ++ "/" ++ toString y ++ "." ++ sii.OutputFormat.lowerString

/-- Lines 46-50 of SliceImage: the crop height of one run. -/
def cropHeight (originalWidth : Int) (aspectRatio : F64) (maxHeight minHeight : Int) : Int :=
  let cropHeight := ((F64.ofInt originalWidth).div aspectRatio).toInt
  if cropHeight < maxHeight then minHeight else cropHeight

/-- What a run of SliceImage leaves behind. -/
structure SliceResult (ε : Type) where
  status : Status ε
  OutputFiles : List String
  trace : List Effect
  deriving DecidableEq, Repr

/-- The loop of SliceImage, lines 52-61, from cursor y; one unit of fuel per iteration. -/
def sliceLoop {ε : Type} (codec : Codec ε) (input : SliceImageInput)
    (originalWidth dy cropHeight : Int) :
    Nat → Int → List String → List Effect → Option (SliceResult ε)
  | 0, _, _, _ => none
  | fuel + 1, y, files, trace =>
    if y ≤ dy - cropHeight then
      let cropped := trace ++ [Effect.crop (imageRect 0 y originalWidth (y + cropHeight))]
      let outputImagePath := codec.pathJoin (input.OutputFileName y)
      match codec.saveImage cropped outputImagePath with
      | some err =>
        some { status := .failed err, OutputFiles := files,
               trace := cropped ++ [Effect.save outputImagePath] }
      | none =>
        sliceLoop codec input originalWidth dy cropHeight fuel (y + cropHeight)
          (files ++ [outputImagePath]) (cropped ++ [Effect.save outputImagePath])
    else some { status := .ok, OutputFiles := files, trace := trace }

/-- The function SliceImage; none when the fuel does not cover the iterations of the loop. -/
def SliceImage {ε : Type} (codec : Codec ε) (fuel : Nat) (input : SliceImageInput) :
    Option (SliceResult ε) :=
  match codec.openImage input.SourcePath with
  | .error err => some { status := .failed err, OutputFiles := input.OutputFiles, trace := [] }
  | .ok ori =>
    let originalWidth := ori.Dx
    let c := cropHeight originalWidth input.AspectRatio input.MaxHeight input.MinHeight
    sliceLoop codec input originalWidth ori.Dy c fuel 0 input.OutputFiles []

/-! ## the scalers -/

/-- The record ScaleDownImageByWidthInput (the resample filter is passed through unread). -/
structure ScaleDownImageByWidthInput where
  SourcePath : String
  OutputPath : String
  Width : Int

/-- The function ScaleDownImageByWidth. -/
def ScaleDownImageByWidth {ε : Type} (codec : Codec ε) (input : ScaleDownImageByWidthInput) :
    Status ε × List Effect :=
  match codec.openImage input.SourcePath with
  | .error err => (.failed err, [])
  | .ok img =>
    if img.Dx ≤ input.Width then (.ok, [])
    else
      let height :=
        (((F64.ofInt img.Dy).mul (F64.ofInt input.Width)).div (F64.ofInt img.Dx)).toInt
      let resized := [Effect.resize input.Width height]
      (Status.ofError (codec.saveImage resized input.OutputPath),
        resized ++ [Effect.save input.OutputPath])

/-- The record ScaleUpAndFillImageInput (the colour is passed through unread). -/
structure ScaleUpAndFillImageInput where
  SourcePath : String
  OutputPath : String
  Width : Int
  Height : Int

/-- The function ScaleUpAndFillImage. -/
def ScaleUpAndFillImage {ε : Type} (codec : Codec ε) (input : ScaleUpAndFillImageInput) :
    Status ε × List Effect :=
  match codec.openImage input.SourcePath with
  | .error err => (.failed err, [])
  | .ok originalImage =>
    let x := (input.Width - originalImage.Dx).tdiv 2
    let y := (input.Height - originalImage.Dy).tdiv 2
    let drawn := [Effect.newContext input.Width input.Height, Effect.clear, Effect.drawImage x y]
    (Status.ofError (codec.saveImage drawn input.OutputPath),
      drawn ++ [Effect.save input.OutputPath])

/-- The record ScaleUpImageByResolutionInput (the resample filter is passed through unread). -/
structure ScaleUpImageByResolutionInput where
  SourcePath : String
  OutputPath : String
  MaxWidth : Int
  MaxHeight : Int

/-- The value a Go int holds for the mathematical result n of an operation: n reduced to the
64-bit two's complement range from -2^63 to 2^63 - 1. -/
def wrapInt (n : Int) : Int := (n + 2 ^ 63) % 2 ^ 64 - 2 ^ 63

/-- The Go product a * b of two ints. -/
def mulInt (a b : Int) : Int := wrapInt (a * b)

/-- The Go quotient a / b of two ints, b not zero. -/
def divInt (a b : Int) : Int := wrapInt (a.tdiv b)

/-- The function ScaleUpImageByResolution. -/
def ScaleUpImageByResolution {ε : Type} (codec : Codec ε)
    (input : ScaleUpImageByResolutionInput) : Status ε × List Effect :=
  match codec.openImage input.SourcePath with
  | .error err => (.failed err, [])
  | .ok inputImage =>
    if inputImage.Dx = 0 then (.panicked, [])
    else
      let newWidth := input.MaxWidth
      let newHeight := divInt (mulInt inputImage.Dy input.MaxWidth) inputImage.Dx
      if newHeight > input.MaxHeight then
        if inputImage.Dy = 0 then (.panicked, [])
        else
          let scaled :=
            [Effect.resize (divInt (mulInt inputImage.Dx input.MaxHeight) inputImage.Dy)
              input.MaxHeight]
          (Status.ofError (codec.saveImage scaled input.OutputPath),
            scaled ++ [Effect.save input.OutputPath])
      else
        let scaled := [Effect.resize newWidth newHeight]
        (Status.ofError (codec.saveImage scaled input.OutputPath),
          scaled ++ [Effect.save input.OutputPath])

/-! ## MergeImagesToVideos -/

/-- The record MergeImagesToVideosInput; ImageDurations lists the entries of the map in the
order in which the range statement of this run visits them. -/
structure MergeImagesToVideosInput where
  ImageDurations : List (String × F64)
  OutputPath : String

/-- One format call of the loop: "-loop 1 -t %.2f -i %s ". -/
def inputClause (image : String) (duration : F64) : String :=
  "-loop 1 -t " ++ duration.format2 ++ " -i " ++ image ++ " "

/-- The buffer cmdBuffer after the loop. -/
def cmdBuffer (entries : List (String × F64)) : String :=
  entries.foldl (fun buf entry => buf ++ inputClause entry.1 entry.2) ""

/-- The string ffmpegCmd that MergeImagesToVideos hands to bash -c. -/
def MergeImagesToVideos (input : MergeImagesToVideosInput) : String :=
  "ffmpeg " ++ cmdBuffer input.ImageDurations ++ " -filter_complex 'concat=n="
    ++ toString input.ImageDurations.length
    ++ ":v=1:a=0[v]' -map '[v]' -c:v libx264 -pix_fmt yuv420p " ++ input.OutputPath ++ " -y"

/-! ## data of the examples -/

/-- The codec used in the examples: every source decodes to the given picture, every save
succeeds, paths are left as they are. -/
def demoCodec (img : Image) : Codec String :=
  { openImage := fun _ => .ok img, saveImage := fun _ _ => none, pathJoin := id }

/-- The slice request of the examples: aspect ratio 2.0, heights 250 to 300, PNG output. -/
def demoSlice : SliceImageInput :=
  { SourcePath := "in.png", OutputDir := "out", MaxHeight := 300, MinHeight := 250,
    OutputFormat := .PNG, AspectRatio := .fin false 2 0, OutputFiles := [] }

/-- The path under which SliceImage saves the segment cut at cursor y. -/
def segmentPath {ε : Type} (codec : Codec ε) (input : SliceImageInput) (y : Int) : String :=
  codec.pathJoin (input.OutputFileName y)

/-- The crop of segment k (counted from 0) for source width w and crop height c. -/
def segmentCrop (w c : Int) (k : Nat) : Effect :=
  Effect.crop (imageRect 0 (k * c) w (k * c + c))

/-- The calls of the first n segments, in order: for each its crop, then its save. -/
def segmentsTrace {ε : Type} (codec : Codec ε) (input : SliceImageInput) (w c : Int)
    (n : Nat) : List Effect :=
  (List.range n).flatMap
    (fun k : Nat => [segmentCrop w c k, Effect.save (segmentPath codec input ((k : Int) * c))])

/-- The paths of the first n segments, in order. -/
def segmentsPaths {ε : Type} (codec : Codec ε) (input : SliceImageInput) (c : Int)
    (n : Nat) : List String :=
  (List.range n).map (fun k : Nat => segmentPath codec input ((k : Int) * c))

/-- A codec whose decoder always succeeds and whose encoder refuses one path. -/
def failingCodec (img : Image) (bad : String) : Codec String :=
  { openImage := fun _ => .ok img,
    saveImage := fun _ path => if path = bad then some "write failed" else none,
    pathJoin := id }

/-- A codec whose decoder fails. -/
def unreadableCodec : Codec String :=
  { openImage := fun _ => .error "decode failed", saveImage := fun _ _ => none, pathJoin := id }

/-- The video request of the examples: one still shown for three seconds. -/
def demoVideo : MergeImagesToVideosInput :=
  { ImageDurations := [("a.jpg", .fin false 3 0)], OutputPath := "out.mp4" }

/-! ## lemmas on binary64 -/

/-- Rounding keeps the sign: the result is finite of that sign, or that infinity. -/
theorem roundRatio_cases (neg : Bool) (a b : Nat) :
    (∃ k p, roundRatio neg a b = .fin neg k p) ∨ roundRatio neg a b = .inf neg := by
  unfold roundRatio
  split_ifs <;> simp

/-- The conversion of a non-negative int is non-negative. -/
theorem ofInt_cases (w : Int) (hw : 0 ≤ w) :
    (∃ k p, F64.ofInt w = .fin false k p) ∨ F64.ofInt w = .inf false := by
  have h : decide (w < 0) = false := by simpa using hw
  unfold F64.ofInt
  rw [h]
  exact roundRatio_cases false _ _

/-- A non-negative datum divided by a positive finite one is non-negative. -/
theorem div_pos_cases (x r : F64) (hx : (∃ k p, x = .fin false k p) ∨ x = .inf false)
    (hr : r.IsPos) :
    (∃ k p, x.div r = .fin false k p) ∨ x.div r = .inf false := by
  cases r with
  | nan => exact hr.elim
  | inf t => exact hr.elim
  | fin t n f =>
    obtain ⟨ht, hn⟩ := hr
    subst ht
    have hn0 : n ≠ 0 := Nat.pos_iff_ne_zero.mp hn
    rcases hx with ⟨k, p, rfl⟩ | rfl
    · simp only [F64.div, hn0, if_false]
      split
      · exact roundRatio_cases _ _ _
      · exact roundRatio_cases _ _ _
    · right; rfl

/-- On a non-negative finite datum below 2^63 the conversion int(f) is the floor. -/
theorem toInt_eq_floor (m : Nat) (e : Int) (q : ℚ)
    (hq : (F64.fin false m e).toRat? = some q) (hlt : q < 2 ^ 63) :
    (F64.fin false m e).toInt = ⌊q⌋ := by
  simp only [F64.toRat?, Option.some.injEq] at hq
  subst hq
  simp only [Bool.false_eq_true, if_false, one_mul] at hlt ⊢
  unfold F64.toInt
  simp only [Bool.false_eq_true, if_false]
  by_cases he : 0 ≤ e
  · obtain ⟨j, rfl⟩ := Int.eq_ofNat_of_zero_le he
    simp only [he, if_true, Int.toNat_ofNat, zpow_natCast] at hlt ⊢
    have hv : ((m : ℚ) * 2 ^ j) = (((m * 2 ^ j : Nat) : Int) : ℚ) := by push_cast; ring
    rw [hv] at hlt ⊢
    rw [Int.floor_intCast]
    have h2 : ((m * 2 ^ j : Nat) : Int) < 2 ^ 63 := by exact_mod_cast hlt
    have h3 : -(2 : Int) ^ 63 ≤ ((m * 2 ^ j : Nat) : Int) := by
      have : (0 : Int) ≤ ((m * 2 ^ j : Nat) : Int) := Int.natCast_nonneg _
      linarith [this]
    rw [if_pos ⟨h3, h2⟩]
  · push_neg at he
    obtain ⟨j, hj⟩ := Int.eq_ofNat_of_zero_le (show 0 ≤ -e by omega)
    have he2 : e = -(j : Int) := by omega
    subst he2
    have hne : ¬ (0 ≤ -(j : Int)) := by omega
    simp only [hne, if_false, neg_neg, Int.toNat_ofNat, zpow_neg, zpow_natCast] at hlt ⊢
    have hfl : ⌊(m : ℚ) * ((2 : ℚ) ^ j)⁻¹⌋ = ((m / 2 ^ j : Nat) : Int) := by
      rw [← div_eq_mul_inv]
      have : ((2 : ℚ) ^ j) = ((2 ^ j : Nat) : ℚ) := by push_cast; rfl
      rw [this, ← Int.natCast_floor_eq_floor (by positivity), Nat.floor_div_eq_div]
    rw [hfl]
    have hle : ((m / 2 ^ j : Nat) : ℚ) ≤ (m : ℚ) * ((2 : ℚ) ^ j)⁻¹ := by
      rw [← div_eq_mul_inv]
      have : ((2 : ℚ) ^ j) = ((2 ^ j : Nat) : ℚ) := by push_cast; rfl
      rw [this]
      exact Nat.cast_div_le
    have h2 : ((m / 2 ^ j : Nat) : Int) < 2 ^ 63 := by
      have : ((m / 2 ^ j : Nat) : ℚ) < 2 ^ 63 := lt_of_le_of_lt hle hlt
      exact_mod_cast this
    have h3 : -(2 : Int) ^ 63 ≤ ((m / 2 ^ j : Nat) : Int) := by
      have : (0 : Int) ≤ ((m / 2 ^ j : Nat) : Int) := Int.natCast_nonneg _
      linarith [this]
    rw [if_pos ⟨h3, h2⟩]

/-! ## bounds on rounding -/

/-- The halving logarithm brackets its argument between two powers of two. -/
theorem log2Fuel_spec : ∀ (fuel n : Nat), n ≤ fuel → 0 < n →
    2 ^ log2Fuel fuel n ≤ n ∧ n < 2 ^ (log2Fuel fuel n + 1) := by
  intro fuel
  induction fuel with
  | zero => intro n h1 h2; omega
  | succ f ih =>
    intro n hn hpos
    unfold log2Fuel
    by_cases h2 : n < 2
    · rw [if_pos h2]
      constructor
      · simpa using hpos
      · simpa using h2
    · rw [if_neg h2]
      obtain ⟨ih1, ih2⟩ := ih (n / 2) (by omega) (by omega)
      have e1 : 2 ^ (log2Fuel f (n / 2) + 1) = 2 * 2 ^ log2Fuel f (n / 2) := by ring
      have e2 : 2 ^ (log2Fuel f (n / 2) + 1 + 1) = 2 * 2 ^ (log2Fuel f (n / 2) + 1) := by ring
      rw [e1] at ih2
      rw [e2, e1]
      constructor <;> omega

/-- The logarithm ilog2 brackets a positive number between two powers of two. -/
theorem ilog2_spec (n : Nat) (hn : 0 < n) : 2 ^ ilog2 n ≤ n ∧ n < 2 ^ (ilog2 n + 1) :=
  log2Fuel_spec n n (le_refl n) hn

/-- A non-negative exponent found by binExp is a lower bound: b * 2^e ≤ a. -/
theorem binExp_spec (a b : Nat) (ha : 0 < a) (hb : 0 < b) (e : Nat)
    (he : binExp a b = (e : Int)) : b * 2 ^ e ≤ a := by
  obtain ⟨ha1, ha2⟩ := ilog2_spec a ha
  obtain ⟨hb1, hb2⟩ := ilog2_spec b hb
  unfold binExp at he
  dsimp only at he
  by_cases h0 : (0 : Int) ≤ (ilog2 a : Int) - (ilog2 b : Int)
  · rw [if_pos h0] at he
    by_cases hge : b * 2 ^ ((ilog2 a : Int) - (ilog2 b : Int)).toNat ≤ a
    · have hd : decide (b * 2 ^ ((ilog2 a : Int) - (ilog2 b : Int)).toNat ≤ a) = true := by
        simpa using hge
      rw [hd] at he
      simp only [if_true] at he
      have : ((ilog2 a : Int) - (ilog2 b : Int)).toNat = e := by omega
      rw [this] at hge
      exact hge
    · have hd : decide (b * 2 ^ ((ilog2 a : Int) - (ilog2 b : Int)).toNat ≤ a) = false := by
        simpa using hge
      rw [hd] at he
      simp only [Bool.false_eq_true, if_false] at he
      have hla : ilog2 a = ilog2 b + e + 1 := by omega
      have h3 : b * 2 ^ e < 2 ^ (ilog2 b + 1) * 2 ^ e :=
        Nat.mul_lt_mul_of_pos_right hb2 (by positivity)
      have h4 : 2 ^ (ilog2 b + 1) * 2 ^ e = 2 ^ ilog2 a := by
        rw [hla, ← pow_add]; congr 1; omega
      omega
  · rw [if_neg h0] at he
    split_ifs at he <;> omega

/-- Rounding to nearest does not exceed an integer bound of the exact quotient. -/
theorem roundHalfEven_le (num den N : Nat) (hden : 0 < den) (h : num ≤ N * den) :
    roundHalfEven num den ≤ N := by
  have hdm := Nat.div_add_mod num den
  have hk : num / den ≤ N := by
    apply Nat.div_le_of_le_mul
    rw [Nat.mul_comm]; exact h
  have hstrict : 0 < num % den → num / den + 1 ≤ N := by
    intro hr
    by_contra hcon
    have hkN : num / den = N := by omega
    rw [hkN] at hdm
    have : den * N = N * den := Nat.mul_comm _ _
    omega
  unfold roundHalfEven
  dsimp only
  split_ifs with h1 h2 h3
  · exact hk
  · exact hstrict (by omega)
  · exact hk
  · exact hstrict (by omega)

/-- Rounding to nearest does not fall below an integer bound of the exact quotient. -/
theorem roundHalfEven_ge (num den N : Nat) (hden : 0 < den) (h : N * den ≤ num) :
    N ≤ roundHalfEven num den := by
  have hk : N ≤ num / den := (Nat.le_div_iff_mul_le hden).mpr h
  unfold roundHalfEven
  dsimp only
  split_ifs <;> omega

/-- Rounding to binary64 does not exceed a bound c * 2^j with c below 2^53 (such a bound is
itself a binary64 value), and then it does not overflow. -/
theorem roundRatio_le (a b c j : Nat) (hb : 0 < b) (hc : c < 2 ^ 53)
    (hB : c * 2 ^ j < 2 ^ 1024) (h : a ≤ c * 2 ^ j * b) :
    ∃ k p, roundRatio false a b = .fin false k p ∧ (k : ℚ) * (2 : ℚ) ^ p ≤ (c : ℚ) * 2 ^ j := by
  by_cases ha : a = 0
  · refine ⟨0, 0, by simp [roundRatio, ha], ?_⟩
    simp only [Nat.cast_zero, zero_mul]
    exact mul_nonneg (Nat.cast_nonneg c) (pow_nonneg (by norm_num) j)
  · have hapos : 0 < a := Nat.pos_of_ne_zero ha
    by_cases hp : 0 ≤ roundExp a b
    · obtain ⟨P, hP⟩ := Int.eq_ofNat_of_zero_le hp
      have hE : binExp a b = ((P + 52 : Nat) : Int) := by
        unfold roundExp at hP
        push_cast
        omega
      have hspec := binExp_spec a b hapos hb (P + 52) hE
      have hPj : P ≤ j := by
        by_contra hcon
        have h1 : 2 ^ (j + 53) ≤ 2 ^ (P + 52) := Nat.pow_le_pow_right (by norm_num) (by omega)
        have h2 : c * 2 ^ j * b < 2 ^ 53 * 2 ^ j * b :=
          Nat.mul_lt_mul_of_pos_right (Nat.mul_lt_mul_of_pos_right hc (by positivity)) hb
        have h3 : b * 2 ^ (j + 53) ≤ b * 2 ^ (P + 52) := Nat.mul_le_mul_left _ h1
        have h4 : 2 ^ 53 * 2 ^ j * b = b * 2 ^ (j + 53) := by ring
        omega
      have hpow : 2 ^ j = 2 ^ (j - P) * 2 ^ P := by
        rw [← pow_add]; congr 1; omega
      have hk : roundMant a b (P : Int) ≤ c * 2 ^ (j - P) := by
        unfold roundMant
        rw [if_pos (Int.natCast_nonneg P)]
        simp only [Int.toNat_ofNat]
        apply roundHalfEven_le _ _ _ (by positivity)
        calc a ≤ c * 2 ^ j * b := h
          _ = c * 2 ^ (j - P) * (b * 2 ^ P) := by rw [hpow]; ring
      have hval : roundMant a b (P : Int) * 2 ^ P ≤ c * 2 ^ j := by
        calc roundMant a b (P : Int) * 2 ^ P ≤ c * 2 ^ (j - P) * 2 ^ P :=
              Nat.mul_le_mul_right _ hk
          _ = c * 2 ^ j := by rw [hpow]; ring
      refine ⟨roundMant a b (P : Int), (P : Int), ?_, ?_⟩
      · unfold roundRatio
        rw [if_neg ha, hP]
        simp only [Int.toNat_ofNat]
        rw [if_neg]
        intro hcon
        have h5 : (2 : Nat) ^ 53 * 2 ^ 971 = 2 ^ 1024 := by norm_num
        omega
      · rw [zpow_natCast]
        exact_mod_cast hval
    · push_neg at hp
      obtain ⟨Q, hQ⟩ := Int.eq_ofNat_of_zero_le (show 0 ≤ -roundExp a b by omega)
      have hpQ : roundExp a b = -(Q : Int) := by omega
      have hk : roundMant a b (-(Q : Int)) ≤ c * 2 ^ j * 2 ^ Q := by
        unfold roundMant
        rw [if_neg (by omega)]
        simp only [neg_neg, Int.toNat_ofNat]
        apply roundHalfEven_le _ _ _ hb
        calc a * 2 ^ Q ≤ c * 2 ^ j * b * 2 ^ Q := Nat.mul_le_mul_right _ h
          _ = c * 2 ^ j * 2 ^ Q * b := by ring
      refine ⟨roundMant a b (-(Q : Int)), -(Q : Int), ?_, ?_⟩
      · unfold roundRatio
        rw [if_neg ha, hpQ]
        rw [if_neg]
        intro hcon
        omega
      · rw [zpow_neg, zpow_natCast, ← div_eq_mul_inv, div_le_iff₀ (by positivity)]
        exact_mod_cast hk

/-- Rounding to binary64 does not fall below an integer bound c below 2^53 (such an integer is
itself a binary64 value). -/
theorem roundRatio_ge (a b c : Nat) (hb : 0 < b) (hc : c < 2 ^ 53) (h : c * b ≤ a) :
    (∃ k p, roundRatio false a b = .fin false k p ∧ (c : ℚ) ≤ (k : ℚ) * (2 : ℚ) ^ p) ∨
      roundRatio false a b = .inf false := by
  by_cases ha : a = 0
  · left
    refine ⟨0, 0, by simp [roundRatio, ha], ?_⟩
    have hc0 : c = 0 := by
      rcases Nat.eq_zero_or_pos c with h0 | h0
      · exact h0
      · have : 0 < c * b := Nat.mul_pos h0 hb
        omega
    simp [hc0]
  · have hapos : 0 < a := Nat.pos_of_ne_zero ha
    by_cases hinf : roundRatio false a b = .inf false
    · right; exact hinf
    left
    have hfin : roundRatio false a b =
        .fin false (roundMant a b (roundExp a b)) (roundExp a b) := by
      unfold roundRatio at hinf ⊢
      rw [if_neg ha] at hinf ⊢
      split_ifs at hinf ⊢ with hcond
      · exact absurd rfl hinf
      · rfl
    refine ⟨_, _, hfin, ?_⟩
    by_cases hp : 0 ≤ roundExp a b
    · obtain ⟨P, hP⟩ := Int.eq_ofNat_of_zero_le hp
      rw [hP, zpow_natCast]
      have hE : binExp a b = ((P + 52 : Nat) : Int) := by
        unfold roundExp at hP
        push_cast
        omega
      have hspec := binExp_spec a b hapos hb (P + 52) hE
      have hnat : c ≤ roundMant a b (P : Int) * 2 ^ P := by
        unfold roundMant
        rw [if_pos (Int.natCast_nonneg P)]
        simp only [Int.toNat_ofNat]
        rcases Nat.eq_zero_or_pos P with hP0 | hPpos
        · subst hP0
          simp only [pow_zero, mul_one]
          exact roundHalfEven_ge _ _ _ hb h
        · have hk : 2 ^ 52 ≤ roundHalfEven a (b * 2 ^ P) := by
            apply roundHalfEven_ge _ _ _ (by positivity)
            calc 2 ^ 52 * (b * 2 ^ P) = b * 2 ^ (P + 52) := by ring
              _ ≤ a := hspec
          have h1 : (2 : Nat) ^ 52 * 2 ^ 1 ≤ roundHalfEven a (b * 2 ^ P) * 2 ^ P :=
            Nat.mul_le_mul hk (Nat.pow_le_pow_right (by norm_num) hPpos)
          have h2 : (2 : Nat) ^ 52 * 2 ^ 1 = 2 ^ 53 := by norm_num
          omega
      exact_mod_cast hnat
    · push_neg at hp
      obtain ⟨Q, hQ⟩ := Int.eq_ofNat_of_zero_le (show 0 ≤ -roundExp a b by omega)
      have hpQ : roundExp a b = -(Q : Int) := by omega
      rw [hpQ]
      have hk : c * 2 ^ Q ≤ roundMant a b (-(Q : Int)) := by
        unfold roundMant
        rw [if_neg (by omega)]
        simp only [neg_neg, Int.toNat_ofNat]
        apply roundHalfEven_ge _ _ _ hb
        calc c * 2 ^ Q * b = c * b * 2 ^ Q := by ring
          _ ≤ a * 2 ^ Q := Nat.mul_le_mul_right _ h
      rw [zpow_neg, zpow_natCast, ← div_eq_mul_inv, le_div_iff₀ (by positivity)]
      exact_mod_cast hk

/-- The same lower bound, for a rounding known to be finite. -/
theorem roundRatio_ge_fin (a b c : Nat) (hb : 0 < b) (hc : c < 2 ^ 53) (h : c * b ≤ a)
    (k : Nat) (p : Int) (hfin : roundRatio false a b = .fin false k p) :
    (c : ℚ) ≤ (k : ℚ) * (2 : ℚ) ^ p := by
  rcases roundRatio_ge a b c hb hc h with ⟨k2, p2, hk2, hge⟩ | hinf
  · rw [hfin] at hk2
    cases hk2
    exact hge
  · rw [hfin] at hinf
    cases hinf

/-- The conversion float64(n) is exact for 0 ≤ n < 2^53. -/
theorem ofInt_exact (n : Int) (h0 : 0 ≤ n) (hn : n < 2 ^ 53) :
    ∃ k p, F64.ofInt n = .fin false k p ∧ (k : ℚ) * (2 : ℚ) ^ p = (n : ℚ) := by
  obtain ⟨m, rfl⟩ := Int.eq_ofNat_of_zero_le h0
  have hm : m < 2 ^ 53 := by exact_mod_cast hn
  have hdef : F64.ofInt (m : Int) = roundRatio false m 1 := by
    unfold F64.ofInt
    have : decide ((m : Int) < 0) = false := by simp
    rw [this, Int.natAbs_ofNat]
  obtain ⟨k, p, hk, hle⟩ := roundRatio_le m 1 m 0 (by norm_num) hm
    (by simp only [pow_zero, mul_one]; exact lt_trans hm (by norm_num)) (by simp)
  refine ⟨k, p, by rw [hdef, hk], ?_⟩
  have hge := roundRatio_ge_fin m 1 m (by norm_num) hm (by simp) k p hk
  simp only [pow_zero, mul_one] at hle
  push_cast
  exact le_antisymm hle hge

/-- The product of two non-negative finite data is the rounding of the exact product. -/
theorem mul_fin (m n : Nat) (e f : Int) :
    ∃ a b : Nat, 0 < b ∧ F64.mul (.fin false m e) (.fin false n f) = roundRatio false a b ∧
      (a : ℚ) / (b : ℚ) = ((m : ℚ) * (2 : ℚ) ^ e) * ((n : ℚ) * (2 : ℚ) ^ f) := by
  by_cases h : 0 ≤ e + f
  · obtain ⟨s, hs⟩ := Int.eq_ofNat_of_zero_le h
    refine ⟨m * n * 2 ^ s, 1, by norm_num, ?_, ?_⟩
    · simp only [F64.mul, if_pos h, hs, Int.toNat_ofNat]
      rfl
    · have : (2 : ℚ) ^ e * (2 : ℚ) ^ f = (2 : ℚ) ^ s := by
        rw [← zpow_add₀ (by norm_num : (2 : ℚ) ≠ 0), hs, zpow_natCast]
      push_cast
      rw [div_one]
      calc (m : ℚ) * n * 2 ^ s = (m : ℚ) * n * ((2 : ℚ) ^ e * (2 : ℚ) ^ f) := by rw [this]
        _ = (m : ℚ) * 2 ^ e * ((n : ℚ) * 2 ^ f) := by ring
  · obtain ⟨s, hs⟩ := Int.eq_ofNat_of_zero_le (show 0 ≤ -(e + f) by omega)
    refine ⟨m * n, 2 ^ s, by positivity, ?_, ?_⟩
    · simp only [F64.mul, if_neg h, hs, Int.toNat_ofNat]
      rfl
    · have : (2 : ℚ) ^ e * (2 : ℚ) ^ f = ((2 : ℚ) ^ s)⁻¹ := by
        rw [← zpow_add₀ (by norm_num : (2 : ℚ) ≠ 0), ← zpow_natCast, ← hs, zpow_neg, inv_inv]
      push_cast
      rw [div_eq_mul_inv]
      calc (m : ℚ) * n * ((2 : ℚ) ^ s)⁻¹ = (m : ℚ) * n * ((2 : ℚ) ^ e * (2 : ℚ) ^ f) := by
            rw [this]
        _ = (m : ℚ) * 2 ^ e * ((n : ℚ) * 2 ^ f) := by ring

/-- The quotient of two non-negative finite data, the divisor not zero, is the rounding of
the exact quotient. -/
theorem div_fin (m n : Nat) (e f : Int) (hn : 0 < n) :
    ∃ a b : Nat, 0 < b ∧ F64.div (.fin false m e) (.fin false n f) = roundRatio false a b ∧
      (a : ℚ) / (b : ℚ) = ((m : ℚ) * (2 : ℚ) ^ e) / ((n : ℚ) * (2 : ℚ) ^ f) := by
  have hn0 : n ≠ 0 := Nat.pos_iff_ne_zero.mp hn
  have hnq : (n : ℚ) ≠ 0 := by exact_mod_cast hn0
  have h2 : (2 : ℚ) ≠ 0 := by norm_num
  by_cases h : 0 ≤ e - f
  · obtain ⟨s, hs⟩ := Int.eq_ofNat_of_zero_le h
    refine ⟨m * 2 ^ s, n, hn, ?_, ?_⟩
    · simp only [F64.div, if_neg hn0, if_pos h, hs, Int.toNat_ofNat]
      rfl
    · have : (2 : ℚ) ^ e = (2 : ℚ) ^ s * (2 : ℚ) ^ f := by
        rw [← zpow_natCast, ← hs, ← zpow_add₀ h2]; congr 1; ring
      push_cast
      rw [this]
      field_simp
      ring
  · have hfe : 0 ≤ f - e := by omega
    obtain ⟨s, hs⟩ := Int.eq_ofNat_of_zero_le hfe
    refine ⟨m, n * 2 ^ s, by positivity, ?_, ?_⟩
    · simp only [F64.div, if_neg hn0, if_neg h, hs, Int.toNat_ofNat]
      rfl
    · have : (2 : ℚ) ^ f = (2 : ℚ) ^ s * (2 : ℚ) ^ e := by
        rw [← zpow_natCast, ← hs, ← zpow_add₀ h2]; congr 1; ring
      push_cast
      rw [this]
      field_simp
      ring

/-- The height ScaleDownImageByWidth computes, for a source H rows by W columns with
H, W below 2^53 and a target width T with 1 ≤ T < W: it is not negative, and it is at least 1
when W ≤ H * T. -/
theorem scaleDown_height (H T W : Int) (hH : 1 ≤ H) (hT : 1 ≤ T) (hTW : T < W)
    (hHb : H < 2 ^ 53) (hWb : W < 2 ^ 53) :
    0 ≤ (((F64.ofInt H).mul (F64.ofInt T)).div (F64.ofInt W)).toInt ∧
      (W ≤ H * T → 1 ≤ (((F64.ofInt H).mul (F64.ofInt T)).div (F64.ofInt W)).toInt) := by
  obtain ⟨k1, p1, hx1, hv1⟩ := ofInt_exact H (by omega) hHb
  obtain ⟨k2, p2, hx2, hv2⟩ := ofInt_exact T (by omega) (by omega)
  obtain ⟨k4, p4, hx4, hv4⟩ := ofInt_exact W (by omega) hWb
  obtain ⟨w, rfl⟩ := Int.eq_ofNat_of_zero_le (show 0 ≤ W by omega)
  have hw53 : w < 2 ^ 53 := by exact_mod_cast hWb
  have hwpos : 0 < w := by omega
  have hk4 : 0 < k4 := by
    rcases Nat.eq_zero_or_pos k4 with h0 | h0
    · rw [h0] at hv4
      simp only [Nat.cast_zero, zero_mul] at hv4
      have : (0 : ℚ) < ((w : Int) : ℚ) := by exact_mod_cast hwpos
      linarith
    · exact h0
  have hHq : (H : ℚ) < 2 ^ 53 := by exact_mod_cast hHb
  have hH1 : (1 : ℚ) ≤ (H : ℚ) := by exact_mod_cast hH
  have hT1 : (1 : ℚ) ≤ (T : ℚ) := by exact_mod_cast hT
  have hTWq : (T : ℚ) < ((w : Int) : ℚ) := by exact_mod_cast hTW
  have hwq : (0 : ℚ) < (w : ℚ) := by exact_mod_cast hwpos
  have hwcast : (((w : Int) : ℚ)) = (w : ℚ) := by push_cast; rfl
  rw [hwcast] at hv4 hTWq
  -- the product
  obtain ⟨a3, b3, hb3, hx3, hr3⟩ := mul_fin k1 k2 p1 p2
  rw [hv1, hv2] at hr3
  have hb3q : (0 : ℚ) < (b3 : ℚ) := by exact_mod_cast hb3
  have hle3 : a3 ≤ w * 2 ^ 53 * b3 := by
    have h1 : (a3 : ℚ) / b3 ≤ (w : ℚ) * 2 ^ 53 := by
      rw [hr3]
      nlinarith
    have h2 : (a3 : ℚ) ≤ (w : ℚ) * 2 ^ 53 * b3 := (div_le_iff₀ hb3q).mp h1
    exact_mod_cast h2
  obtain ⟨k3, p3, hf3, hv3⟩ := roundRatio_le a3 b3 w 53 hb3 hw53
    (by
      calc w * 2 ^ 53 < 2 ^ 53 * 2 ^ 53 := Nat.mul_lt_mul_of_pos_right hw53 (by positivity)
        _ < 2 ^ 1024 := by norm_num) hle3
  -- the quotient
  obtain ⟨a5, b5, hb5, hx5, hr5⟩ := div_fin k3 k4 p3 p4 hk4
  rw [hv4] at hr5
  have hb5q : (0 : ℚ) < (b5 : ℚ) := by exact_mod_cast hb5
  have hle5 : a5 ≤ 1 * 2 ^ 53 * b5 := by
    have h1 : (a5 : ℚ) / b5 ≤ 2 ^ 53 := by
      rw [hr5, div_le_iff₀ hwq]
      linarith
    have h2 : (a5 : ℚ) ≤ 2 ^ 53 * b5 := (div_le_iff₀ hb5q).mp h1
    have h3 : (a5 : ℚ) ≤ ((1 * 2 ^ 53 * b5 : Nat) : ℚ) := by push_cast; linarith
    exact_mod_cast h3
  obtain ⟨k5, p5, hf5, hv5⟩ := roundRatio_le a5 b5 1 53 hb5 (by norm_num) (by norm_num) hle5
  have hquot : ((F64.ofInt H).mul (F64.ofInt T)).div (F64.ofInt (w : Int)) = .fin false k5 p5 := by
    rw [hx1, hx2, hx4, hx3, hf3, hx5, hf5]
  have hlt63 : (k5 : ℚ) * (2 : ℚ) ^ p5 < 2 ^ 63 := by
    have : ((1 : Nat) : ℚ) * 2 ^ 53 < 2 ^ 63 := by norm_num
    linarith
  have hfloor := toInt_eq_floor k5 p5 ((k5 : ℚ) * (2 : ℚ) ^ p5)
    (by simp [F64.toRat?]) hlt63
  rw [hquot, hfloor]
  constructor
  · exact Int.floor_nonneg.mpr (by positivity)
  · intro hWHT
    have hWHTq : (w : ℚ) ≤ (H : ℚ) * (T : ℚ) := by
      have : ((w : Int) : ℚ) ≤ ((H * T : Int) : ℚ) := by exact_mod_cast hWHT
      push_cast at this
      exact this
    -- the rounded product is at least W
    have hge3 : w * b3 ≤ a3 := by
      have h1 : (w : ℚ) ≤ (a3 : ℚ) / b3 := by rw [hr3]; exact hWHTq
      have h2 : (w : ℚ) * b3 ≤ (a3 : ℚ) := (le_div_iff₀ hb3q).mp h1
      exact_mod_cast h2
    have hv3ge : (w : ℚ) ≤ (k3 : ℚ) * (2 : ℚ) ^ p3 := by
      exact roundRatio_ge_fin a3 b3 w hb3 hw53 hge3 k3 p3 hf3
    have hge5 : 1 * b5 ≤ a5 := by
      have h1 : (1 : ℚ) ≤ (a5 : ℚ) / b5 := by
        rw [hr5, le_div_iff₀ hwq]
        linarith
      have h2 : (1 : ℚ) * b5 ≤ (a5 : ℚ) := (le_div_iff₀ hb5q).mp h1
      exact_mod_cast h2
    have hv5ge : (1 : ℚ) ≤ (k5 : ℚ) * (2 : ℚ) ^ p5 := by
      have := roundRatio_ge_fin a5 b5 1 hb5 (by norm_num) hge5 k5 p5 hf5
      exact_mod_cast this
    exact Int.le_floor.mpr (by exact_mod_cast hv5ge)

/-! ## the crop height of SliceImage -/

/-- C1 (amended). For every source width w ≥ 1 and finite aspect ratio r > 0 whose float64
quotient q = float64(w) / r, as the code computes it, is below 2^63, the crop height is
minHeight when floor(q) < maxHeight and floor(q) otherwise; for w = 400, r = 2.0,
maxHeight = 300 and minHeight = 250 it is 250. -/
theorem C1_cropHeight_rule (w : Int) (r : F64) (maxHeight minHeight : Int) (q : ℚ)
    (hw : 1 ≤ w) (hr : r.IsPos)
    (hq : ((F64.ofInt w).div r).toRat? = some q) (hlt : q < 2 ^ 63) :
    cropHeight w r maxHeight minHeight = (if ⌊q⌋ < maxHeight then minHeight else ⌊q⌋) ∧
      cropHeight 400 (.fin false 2 0) 300 250 = 250 := by
  refine ⟨?_, by decide⟩
  rcases div_pos_cases _ r (ofInt_cases w (by omega)) hr with ⟨k, p, hk⟩ | hinf
  · rw [hk] at hq
    have hfl := toInt_eq_floor k p q hq hlt
    unfold cropHeight
    simp only [hk, hfl]
  · rw [hinf] at hq
    simp [F64.toRat?] at hq

/-- C1, witness: width 400 and aspect ratio 2.0 give the quotient 200, below the cap 300. -/
theorem C1_cropHeight_rule_witness :
    (1 : Int) ≤ 400 ∧ (F64.fin false 2 0).IsPos ∧
      cropHeight 400 (.fin false 2 0) 300 250 = (if ⌊(200 : ℚ)⌋ < 300 then 250 else ⌊(200 : ℚ)⌋) :=
  ⟨by decide, ⟨rfl, by decide⟩,
    (C1_cropHeight_rule 400 (.fin false 2 0) 300 250 200 (by decide) ⟨rfl, by decide⟩
      (by
        have h : (F64.ofInt 400).div (.fin false 2 0) = .fin false 7036874417766400 (-45) := by
          decide
        rw [h]
        simp only [F64.toRat?, Bool.false_eq_true, if_false, Option.some.injEq]
        norm_num)
      (by norm_num)).1⟩

/-- C1, counterexample: width 1 and aspect ratio 2^-70. The quotient is exactly 2^70, which is
not below maxHeight = 300, so the claim asks for the crop height 2^70. No int can hold that
value: the conversion int(q) is out of range, it yields -2^63 (amd64), and SliceImage falls
back to minHeight = 250. -/
theorem C1_counterexample :
    (F64.fin false 1 (-70)).IsPos ∧
      ((F64.ofInt 1).div (.fin false 1 (-70))).toRat? = some ((1 : ℚ) / 2 ^ (-70 : Int)) ∧
      ⌊(1 : ℚ) / 2 ^ (-70 : Int)⌋ = 2 ^ 70 ∧
      cropHeight 1 (.fin false 1 (-70)) 300 250 = 250 ∧
      cropHeight 1 (.fin false 1 (-70)) 300 250 ≠
        (if ⌊(1 : ℚ) / 2 ^ (-70 : Int)⌋ < 300 then 250 else ⌊(1 : ℚ) / 2 ^ (-70 : Int)⌋) := by
  have hfl : ⌊(1 : ℚ) / 2 ^ (-70 : Int)⌋ = 2 ^ 70 := by
    have h : (1 : ℚ) / 2 ^ (-70 : Int) = ((2 ^ 70 : Int) : ℚ) := by
      rw [zpow_neg]; norm_num
    rw [h, Int.floor_intCast]
  have hc : cropHeight 1 (.fin false 1 (-70)) 300 250 = 250 := by decide
  refine ⟨⟨rfl, by decide⟩, ?_, hfl, hc, ?_⟩
  · have h : (F64.ofInt 1).div (.fin false 1 (-70)) = .fin false 4503599627370496 18 := by
      decide
    rw [h]
    simp only [F64.toRat?, Bool.false_eq_true, if_false, Option.some.injEq]
    rw [zpow_neg]; norm_num
  · rw [hc, hfl]
    norm_num

/-- C8 (amended). For every slice request with 1 ≤ minHeight ≤ maxHeight (any aspect ratio, any
source) the crop height c of SliceImage is at least 1: it is minHeight, or it is at least
maxHeight. It may exceed the source height, and then SliceImage returns nil having cropped and
saved nothing. -/
theorem C8_cropHeight_at_least_one {ε : Type} (codec : Codec ε) (input : SliceImageInput)
    (ori : Image) (fuel : Nat)
    (hopen : codec.openImage input.SourcePath = .ok ori)
    (hmin : 1 ≤ input.MinHeight) (hle : input.MinHeight ≤ input.MaxHeight) :
    1 ≤ cropHeight ori.Dx input.AspectRatio input.MaxHeight input.MinHeight ∧
      (cropHeight ori.Dx input.AspectRatio input.MaxHeight input.MinHeight = input.MinHeight ∨
        input.MaxHeight ≤ cropHeight ori.Dx input.AspectRatio input.MaxHeight input.MinHeight) ∧
      (ori.Dy < cropHeight ori.Dx input.AspectRatio input.MaxHeight input.MinHeight →
        SliceImage codec (fuel + 1) input =
          some { status := .ok, OutputFiles := input.OutputFiles, trace := [] }) := by
  have hcases :
      cropHeight ori.Dx input.AspectRatio input.MaxHeight input.MinHeight = input.MinHeight ∨
        input.MaxHeight ≤ cropHeight ori.Dx input.AspectRatio input.MaxHeight input.MinHeight := by
    unfold cropHeight
    dsimp only
    split_ifs with h
    · left; rfl
    · right; omega
  refine ⟨?_, hcases, ?_⟩
  · rcases hcases with h | h <;> omega
  · intro hlt
    unfold SliceImage
    rw [hopen]
    dsimp only
    unfold sliceLoop
    rw [if_neg (by omega)]

/-- C8, witness: a 400 x 100 source with heights 250 to 300. -/
theorem C8_cropHeight_at_least_one_witness :
    1 ≤ cropHeight (Image.ofSize 400 100).Dx demoSlice.AspectRatio demoSlice.MaxHeight
        demoSlice.MinHeight ∧
      SliceImage (demoCodec (Image.ofSize 400 100)) 1 demoSlice =
        some { status := .ok, OutputFiles := [], trace := [] } :=
  have h := C8_cropHeight_at_least_one (demoCodec (Image.ofSize 400 100)) demoSlice
    (Image.ofSize 400 100) 0 rfl (by decide) (by decide)
  ⟨h.1, h.2.2 (by decide)⟩

/-- C8, counterexample: a 400 x 100 source, aspect ratio 2.0, minHeight 250 ≤ maxHeight 300.
The crop height is 250, above the source height 100. -/
theorem C8_counterexample :
    (1 : Int) ≤ demoSlice.MinHeight ∧ demoSlice.MinHeight ≤ demoSlice.MaxHeight ∧
      demoSlice.AspectRatio.IsPos ∧
      0 < (Image.ofSize 400 100).Dx ∧ 0 < (Image.ofSize 400 100).Dy ∧
      cropHeight (Image.ofSize 400 100).Dx demoSlice.AspectRatio demoSlice.MaxHeight
        demoSlice.MinHeight = 250 ∧
      ¬ (cropHeight (Image.ofSize 400 100).Dx demoSlice.AspectRatio demoSlice.MaxHeight
        demoSlice.MinHeight ≤ (Image.ofSize 400 100).Dy) := by
  refine ⟨by decide, by decide, ⟨rfl, by decide⟩, by decide, by decide, by decide, by decide⟩

/-! ## the scalers -/

/-- C4. For every decodable source and every target width, ScaleDownImageByWidth with
sourceWidth ≤ targetWidth returns nil with an empty trace (no resize, no save), and a save
appears in its trace only when sourceWidth > targetWidth. -/
theorem C4_scaleDown_noop {ε : Type} (codec : Codec ε) (input : ScaleDownImageByWidthInput)
    (img : Image) (hopen : codec.openImage input.SourcePath = .ok img) :
    (img.Dx ≤ input.Width → ScaleDownImageByWidth codec input = (.ok, [])) ∧
      (∀ path, Effect.save path ∈ (ScaleDownImageByWidth codec input).2 →
        input.Width < img.Dx) := by
  constructor
  · intro hle
    unfold ScaleDownImageByWidth
    rw [hopen]
    dsimp only
    rw [if_pos hle]
  · intro path hmem
    by_contra hnot
    have hle : img.Dx ≤ input.Width := by omega
    unfold ScaleDownImageByWidth at hmem
    rw [hopen] at hmem
    dsimp only at hmem
    rw [if_pos hle] at hmem
    simp at hmem

/-- C4, witness: an 800 x 600 source and target width 1000; nothing is resized or saved. -/
theorem C4_scaleDown_noop_witness :
    ScaleDownImageByWidth (demoCodec (Image.ofSize 800 600))
      { SourcePath := "in.png", OutputPath := "out.png", Width := 1000 } = (.ok, []) :=
  (C4_scaleDown_noop (demoCodec (Image.ofSize 800 600))
    { SourcePath := "in.png", OutputPath := "out.png", Width := 1000 }
    (Image.ofSize 800 600) rfl).1 (by decide)

/-- A result inside the int64 range is held unchanged. -/
theorem wrapInt_eq_self (n : Int) (h0 : -(2 : Int) ^ 63 ≤ n) (h1 : n < (2 : Int) ^ 63) :
    wrapInt n = n := by
  unfold wrapInt
  omega

/-- The height computed at line 198 when the product H * maxW does not wrap. -/
theorem scaleUp_newHeight (W H maxW : Int) (hW : 0 < W) (hH : 0 < H) (hmw : 0 < maxW)
    (hb : H * maxW < (2 : Int) ^ 63) :
    divInt (mulInt H maxW) W = H * maxW / W := by
  have hp : 0 ≤ H * maxW := by positivity
  have hq0 : 0 ≤ H * maxW / W := Int.ediv_nonneg hp hW.le
  have hq1 : H * maxW / W ≤ H * maxW := Int.ediv_le_self W hp
  unfold divInt mulInt
  rw [wrapInt_eq_self (H * maxW) (by omega) hb, Int.tdiv_eq_ediv hp hW.le]
  exact wrapInt_eq_self _ (by omega) (by omega)

/-- The width computed at line 202, reached when the height of line 198 exceeds maxH: then
W * maxH is below H * maxW and does not wrap either. -/
theorem scaleUp_newWidth (W H maxW maxH : Int) (hW : 0 < W) (hH : 0 < H) (hmh : 0 < maxH)
    (hb : H * maxW < (2 : Int) ^ 63) (hgt : maxH < H * maxW / W) :
    divInt (mulInt W maxH) H = W * maxH / H := by
  have hmul : (maxH + 1) * W ≤ H * maxW := (Int.le_ediv_iff_mul_le hW).mp (by omega)
  have hlt : W * maxH < H * maxW := by nlinarith
  have hp : 0 ≤ W * maxH := by positivity
  have hq0 : 0 ≤ W * maxH / H := Int.ediv_nonneg hp hH.le
  have hq1 : W * maxH / H ≤ W * maxH := Int.ediv_le_self H hp
  unfold divInt mulInt
  rw [wrapInt_eq_self (W * maxH) (by omega) (by omega), Int.tdiv_eq_ediv hp hH.le]
  exact wrapInt_eq_self _ (by omega) (by omega)

/-- C5 (amended). For every source of positive size W x H and positive box maxW x maxH with
H * maxW < 2^63, ScaleUpImageByResolution resizes to (maxW, floor(H * maxW / W)) when
floor(H * maxW / W) ≤ maxH and to (floor(W * maxH / H), maxH) otherwise, then saves. -/
theorem C5_contain_size {ε : Type} (codec : Codec ε) (input : ScaleUpImageByResolutionInput)
    (img : Image) (hopen : codec.openImage input.SourcePath = .ok img)
    (hW : 0 < img.Dx) (hH : 0 < img.Dy) (hmw : 0 < input.MaxWidth) (hmh : 0 < input.MaxHeight)
    (hb : img.Dy * input.MaxWidth < (2 : Int) ^ 63) :
    ∃ w h : Int,
      (w, h) =
        (if (img.Dy * input.MaxWidth).fdiv img.Dx ≤ input.MaxHeight then
          (input.MaxWidth, (img.Dy * input.MaxWidth).fdiv img.Dx)
        else ((img.Dx * input.MaxHeight).fdiv img.Dy, input.MaxHeight)) ∧
      ScaleUpImageByResolution codec input =
        (Status.ofError (codec.saveImage [Effect.resize w h] input.OutputPath),
          [Effect.resize w h, Effect.save input.OutputPath]) := by
  have h1 : (img.Dy * input.MaxWidth).fdiv img.Dx = img.Dy * input.MaxWidth / img.Dx :=
    Int.fdiv_eq_ediv _ hW.le
  have h2 : (img.Dx * input.MaxHeight).fdiv img.Dy = img.Dx * input.MaxHeight / img.Dy :=
    Int.fdiv_eq_ediv _ hH.le
  have hh := scaleUp_newHeight img.Dx img.Dy input.MaxWidth hW hH hmw hb
  unfold ScaleUpImageByResolution
  rw [hopen]
  dsimp only
  rw [if_neg hW.ne', hh, h1, h2]
  by_cases hle : img.Dy * input.MaxWidth / img.Dx ≤ input.MaxHeight
  · refine ⟨input.MaxWidth, img.Dy * input.MaxWidth / img.Dx, ?_, ?_⟩
    · rw [if_pos hle]
    · rw [if_neg (by omega)]
      rfl
  · have hw := scaleUp_newWidth img.Dx img.Dy input.MaxWidth input.MaxHeight hW hH hmh hb
      (by omega)
    refine ⟨img.Dx * input.MaxHeight / img.Dy, input.MaxHeight, ?_, ?_⟩
    · rw [if_neg hle]
    · rw [if_pos (by omega), if_neg hH.ne', hw]
      rfl

/-- C5, witness: a 2000 x 1000 source in the box 1000 x 1000 is resized to 1000 x 500, and a
500 x 2000 source in the box 1000 x 500 to 125 x 500. -/
theorem C5_contain_size_witness :
    (∃ w h : Int, (w, h) = ((1000 : Int), (500 : Int)) ∧
      ScaleUpImageByResolution (demoCodec (Image.ofSize 2000 1000))
        { SourcePath := "in.png", OutputPath := "out.png", MaxWidth := 1000, MaxHeight := 1000 } =
        (Status.ofError ((demoCodec (Image.ofSize 2000 1000)).saveImage [Effect.resize w h]
          "out.png"), [Effect.resize w h, Effect.save "out.png"])) ∧
    (∃ w h : Int, (w, h) = ((125 : Int), (500 : Int)) ∧
      ScaleUpImageByResolution (demoCodec (Image.ofSize 500 2000))
        { SourcePath := "in.png", OutputPath := "out.png", MaxWidth := 1000, MaxHeight := 500 } =
        (Status.ofError ((demoCodec (Image.ofSize 500 2000)).saveImage [Effect.resize w h]
          "out.png"), [Effect.resize w h, Effect.save "out.png"])) :=
  ⟨C5_contain_size (demoCodec (Image.ofSize 2000 1000))
      { SourcePath := "in.png", OutputPath := "out.png", MaxWidth := 1000, MaxHeight := 1000 }
      (Image.ofSize 2000 1000) rfl (by decide) (by decide) (by decide) (by decide) (by decide),
    C5_contain_size (demoCodec (Image.ofSize 500 2000))
      { SourcePath := "in.png", OutputPath := "out.png", MaxWidth := 1000, MaxHeight := 500 }
      (Image.ofSize 500 2000) rfl (by decide) (by decide) (by decide) (by decide) (by decide)⟩

/-- C5, counterexample: a source 3 wide and 4 high in the box 2^62 x 10. The product
4 * 2^62 = 2^64 wraps to 0, so the code resizes to (2^62, 0), while floor(4 * 2^62 / 3)
exceeds 10 and the claim asks for (floor(3 * 10 / 4), 10) = (7, 10). -/
theorem C5_counterexample :
    ScaleUpImageByResolution (demoCodec (Image.ofSize 3 4))
        { SourcePath := "in.png", OutputPath := "out.png", MaxWidth := 2 ^ 62, MaxHeight := 10 } =
      (.ok, [Effect.resize (2 ^ 62) 0, Effect.save "out.png"]) ∧
      ¬ (((Image.ofSize 3 4).Dy * 2 ^ 62).fdiv (Image.ofSize 3 4).Dx ≤ 10) ∧
      ((Image.ofSize 3 4).Dx * 10).fdiv (Image.ofSize 3 4).Dy = 7 := by
  decide

/-- C6 (amended). For every source of positive size W x H and positive box maxW x maxH with
H * maxW < 2^63, the size (w, h) that ScaleUpImageByResolution passes to the resampler fits
the box, w = maxW when W * maxH ≥ H * maxW, and h = maxH when H * maxW ≥ W * maxH. -/
theorem C6_contain_fits_box {ε : Type} (codec : Codec ε)
    (input : ScaleUpImageByResolutionInput) (img : Image)
    (hopen : codec.openImage input.SourcePath = .ok img)
    (hW : 0 < img.Dx) (hH : 0 < img.Dy) (hmw : 0 < input.MaxWidth) (hmh : 0 < input.MaxHeight)
    (hb : img.Dy * input.MaxWidth < (2 : Int) ^ 63) :
    ∃ w h : Int,
      ScaleUpImageByResolution codec input =
        (Status.ofError (codec.saveImage [Effect.resize w h] input.OutputPath),
          [Effect.resize w h, Effect.save input.OutputPath]) ∧
      w ≤ input.MaxWidth ∧ h ≤ input.MaxHeight ∧
      (img.Dy * input.MaxWidth ≤ img.Dx * input.MaxHeight → w = input.MaxWidth) ∧
      (img.Dx * input.MaxHeight ≤ img.Dy * input.MaxWidth → h = input.MaxHeight) := by
  have hh := scaleUp_newHeight img.Dx img.Dy input.MaxWidth hW hH hmw hb
  unfold ScaleUpImageByResolution
  rw [hopen]
  dsimp only
  rw [if_neg hW.ne', hh]
  by_cases hle : img.Dy * input.MaxWidth / img.Dx ≤ input.MaxHeight
  · refine ⟨input.MaxWidth, img.Dy * input.MaxWidth / img.Dx, ?_, le_refl _, hle, ?_, ?_⟩
    · rw [if_neg (by omega)]
      rfl
    · intro _; rfl
    · intro hge
      have : input.MaxHeight ≤ img.Dy * input.MaxWidth / img.Dx :=
        (Int.le_ediv_iff_mul_le hW).mpr (by linarith [mul_comm input.MaxHeight img.Dx])
      omega
  · have hw := scaleUp_newWidth img.Dx img.Dy input.MaxWidth input.MaxHeight hW hH hmh hb
      (by omega)
    have hgt : input.MaxHeight + 1 ≤ img.Dy * input.MaxWidth / img.Dx := by omega
    have hmul : (input.MaxHeight + 1) * img.Dx ≤ img.Dy * input.MaxWidth :=
      (Int.le_ediv_iff_mul_le hW).mp hgt
    refine ⟨img.Dx * input.MaxHeight / img.Dy, input.MaxHeight, ?_, ?_, le_refl _, ?_, ?_⟩
    · rw [if_pos (by omega), if_neg hH.ne', hw]
      rfl
    · have : img.Dx * input.MaxHeight / img.Dy < input.MaxWidth + 1 :=
        (Int.ediv_lt_iff_lt_mul hH).mpr (by nlinarith)
      omega
    · intro hcontra
      exfalso
      nlinarith
    · intro _; rfl

/-- C6, witness: a 500 x 2000 source in the box 1000 x 500; the height is the binding edge. -/
theorem C6_contain_fits_box_witness :
    ∃ w h : Int,
      ScaleUpImageByResolution (demoCodec (Image.ofSize 500 2000))
        { SourcePath := "in.png", OutputPath := "out.png", MaxWidth := 1000, MaxHeight := 500 } =
        (Status.ofError ((demoCodec (Image.ofSize 500 2000)).saveImage [Effect.resize w h]
          "out.png"), [Effect.resize w h, Effect.save "out.png"]) ∧
      w ≤ 1000 ∧ h ≤ 500 ∧
      ((2000 : Int) * 1000 ≤ 500 * 500 → w = 1000) ∧
      ((500 : Int) * 500 ≤ 2000 * 1000 → h = 500) :=
  C6_contain_fits_box (demoCodec (Image.ofSize 500 2000))
    { SourcePath := "in.png", OutputPath := "out.png", MaxWidth := 1000, MaxHeight := 500 }
    (Image.ofSize 500 2000) rfl (by decide) (by decide) (by decide) (by decide) (by decide)

/-- C6, counterexample: a source 3 wide and 4 high in the box 2^62 x 10. Here
H * maxW = 2^64 ≥ W * maxH = 30, so the claim asks for h = maxH = 10; the product wraps to 0
and the code passes the height 0. -/
theorem C6_counterexample :
    ScaleUpImageByResolution (demoCodec (Image.ofSize 3 4))
        { SourcePath := "in.png", OutputPath := "out.png", MaxWidth := 2 ^ 62, MaxHeight := 10 } =
      (.ok, [Effect.resize (2 ^ 62) 0, Effect.save "out.png"]) ∧
      (Image.ofSize 3 4).Dx * 10 ≤ (Image.ofSize 3 4).Dy * 2 ^ 62 ∧
      (0 : Int) ≠ 10 := by
  decide

/-- Halving in Go: the floor for a non-negative operand, the ceiling for a negative one. -/
theorem tdiv_two (d : Int) :
    (0 ≤ d → d.tdiv 2 = ⌊(d : ℚ) / 2⌋) ∧ (d < 0 → d.tdiv 2 = ⌈(d : ℚ) / 2⌉) := by
  have hfloor : ∀ n : Int, ⌊(n : ℚ) / 2⌋ = n / 2 := by
    intro n
    have := Rat.floor_intCast_div_natCast n 2
    simpa using this
  constructor
  · intro hd
    rw [hfloor, Int.tdiv_eq_ediv hd (by decide)]
  · intro hd
    have hneg : d.tdiv 2 = -((-d) / 2) := by
      have h := Int.neg_tdiv (-d) 2
      rw [neg_neg] at h
      rw [h, Int.tdiv_eq_ediv (by omega) (by decide)]
    have hceil : ⌈(d : ℚ) / 2⌉ = -⌊((-d : Int) : ℚ) / 2⌋ := by
      rw [← Int.ceil_neg]
      congr 1
      push_cast
      ring
    rw [hneg, hceil, hfloor]

/-- C7 (amended). For all integer canvas and source sizes, ScaleUpAndFillImage draws the source
at x = (canvasW - sourceW) / 2 and y = (canvasH - sourceH) / 2 rounded toward zero: the floor
when the source is no larger than the canvas in that dimension, the ceiling when it is
larger. -/
theorem C7_letterbox_offset {ε : Type} (codec : Codec ε) (input : ScaleUpAndFillImageInput)
    (img : Image) (hopen : codec.openImage input.SourcePath = .ok img) :
    ∃ x y : Int,
      ScaleUpAndFillImage codec input =
        (Status.ofError (codec.saveImage
            [Effect.newContext input.Width input.Height, Effect.clear, Effect.drawImage x y]
            input.OutputPath),
          [Effect.newContext input.Width input.Height, Effect.clear, Effect.drawImage x y,
            Effect.save input.OutputPath]) ∧
      (img.Dx ≤ input.Width → x = ⌊((input.Width - img.Dx : Int) : ℚ) / 2⌋) ∧
      (input.Width < img.Dx → x = ⌈((input.Width - img.Dx : Int) : ℚ) / 2⌉) ∧
      (img.Dy ≤ input.Height → y = ⌊((input.Height - img.Dy : Int) : ℚ) / 2⌋) ∧
      (input.Height < img.Dy → y = ⌈((input.Height - img.Dy : Int) : ℚ) / 2⌉) := by
  refine ⟨(input.Width - img.Dx).tdiv 2, (input.Height - img.Dy).tdiv 2, ?_, ?_, ?_, ?_, ?_⟩
  · unfold ScaleUpAndFillImage
    rw [hopen]
    rfl
  · intro h; exact (tdiv_two _).1 (by omega)
  · intro h; exact (tdiv_two _).2 (by omega)
  · intro h; exact (tdiv_two _).1 (by omega)
  · intro h; exact (tdiv_two _).2 (by omega)

/-- C7, witness: a 6 x 2 source on a 3 x 5 canvas is drawn at (-1, 1). -/
theorem C7_letterbox_offset_witness :
    ∃ x y : Int,
      ScaleUpAndFillImage (demoCodec (Image.ofSize 6 2))
        { SourcePath := "in.png", OutputPath := "out.png", Width := 3, Height := 5 } =
        (Status.ofError ((demoCodec (Image.ofSize 6 2)).saveImage
            [Effect.newContext 3 5, Effect.clear, Effect.drawImage x y] "out.png"),
          [Effect.newContext 3 5, Effect.clear, Effect.drawImage x y, Effect.save "out.png"]) ∧
      ((6 : Int) ≤ 3 → x = ⌊(((3 : Int) - 6 : Int) : ℚ) / 2⌋) ∧
      ((3 : Int) < 6 → x = ⌈(((3 : Int) - 6 : Int) : ℚ) / 2⌉) ∧
      ((2 : Int) ≤ 5 → y = ⌊(((5 : Int) - 2 : Int) : ℚ) / 2⌋) ∧
      ((5 : Int) < 2 → y = ⌈(((5 : Int) - 2 : Int) : ℚ) / 2⌉) :=
  C7_letterbox_offset (demoCodec (Image.ofSize 6 2))
    { SourcePath := "in.png", OutputPath := "out.png", Width := 3, Height := 5 }
    (Image.ofSize 6 2) rfl

/-- C7, counterexample: a 6 x 6 source on a 3 x 3 canvas is drawn at (-1, -1), while
floor((3 - 6) / 2) = -2. -/
theorem C7_counterexample :
    ScaleUpAndFillImage (demoCodec (Image.ofSize 6 6))
        { SourcePath := "in.png", OutputPath := "out.png", Width := 3, Height := 3 } =
      (.ok, [Effect.newContext 3 3, Effect.clear, Effect.drawImage (-1) (-1),
        Effect.save "out.png"]) ∧
      ⌊(((3 : Int) - (Image.ofSize 6 6).Dx : Int) : ℚ) / 2⌋ = -2 ∧
      ⌊(((3 : Int) - (Image.ofSize 6 6).Dy : Int) : ℚ) / 2⌋ = -2 := by
  have hfl : ⌊(((3 : Int) - 6 : Int) : ℚ) / 2⌋ = -2 := by
    have := Rat.floor_intCast_div_natCast ((3 : Int) - 6) 2
    simpa using this
  exact ⟨by decide, hfl, hfl⟩

/-! ## the loop of SliceImage -/

/-- The calls of n + 1 segments are those of n segments followed by the calls of segment n. -/
theorem segmentsTrace_succ {ε : Type} (codec : Codec ε) (input : SliceImageInput) (w c : Int)
    (n : Nat) :
    segmentsTrace codec input w c (n + 1) =
      segmentsTrace codec input w c n ++
        [segmentCrop w c n, Effect.save (segmentPath codec input (n * c))] := by
  simp [segmentsTrace, List.range_succ, List.flatMap_append]

/-- The paths of n + 1 segments are those of n segments followed by the path of segment n. -/
theorem segmentsPaths_succ {ε : Type} (codec : Codec ε) (input : SliceImageInput) (c : Int)
    (n : Nat) :
    segmentsPaths codec input c (n + 1) =
      segmentsPaths codec input c n ++ [segmentPath codec input (n * c)] := by
  simp [segmentsPaths, List.range_succ]

/-- One iteration of the loop at segment j whose save succeeds. -/
theorem sliceLoop_step {ε : Type} (codec : Codec ε) (input : SliceImageInput) (w dy c : Int)
    (files : List String) (fuel j : Nat)
    (hguard : (j : Int) * c ≤ dy - c)
    (hsave : codec.saveImage (segmentsTrace codec input w c j ++ [segmentCrop w c j])
      (segmentPath codec input (j * c)) = none) :
    sliceLoop codec input w dy c (fuel + 1) (j * c)
        (files ++ segmentsPaths codec input c j) (segmentsTrace codec input w c j) =
      sliceLoop codec input w dy c fuel (((j + 1 : Nat) : Int) * c)
        (files ++ segmentsPaths codec input c (j + 1)) (segmentsTrace codec input w c (j + 1)) := by
  have hnext : (j : Int) * c + c = ((j + 1 : Nat) : Int) * c := by push_cast; ring
  rw [sliceLoop, if_pos hguard]
  simp only [segmentCrop, segmentPath] at hsave
  simp only [hsave]
  rw [hnext, segmentsTrace_succ, segmentsPaths_succ]
  simp [segmentCrop, segmentPath, List.append_assoc, hnext]

/-- A run of the loop from segment j in which the saves of segments j .. n-1 succeed and the
guard fails at segment n. -/
theorem sliceLoop_run {ε : Type} (codec : Codec ε) (input : SliceImageInput) (w dy c : Int)
    (files : List String) (n : Nat)
    (hguard : ∀ i : Nat, i < n → (i : Int) * c ≤ dy - c)
    (hstop : ¬ ((n : Int) * c ≤ dy - c))
    (hsave : ∀ i : Nat, i < n →
      codec.saveImage (segmentsTrace codec input w c i ++ [segmentCrop w c i])
        (segmentPath codec input (i * c)) = none) :
    ∀ (d j fuel : Nat), j + d = n → d < fuel →
      sliceLoop codec input w dy c fuel (j * c)
          (files ++ segmentsPaths codec input c j) (segmentsTrace codec input w c j) =
        some { status := .ok, OutputFiles := files ++ segmentsPaths codec input c n,
               trace := segmentsTrace codec input w c n } := by
  intro d
  induction d with
  | zero =>
    intro j fuel hj hfuel
    obtain ⟨f, rfl⟩ : ∃ f, fuel = f + 1 := ⟨fuel - 1, by omega⟩
    have hjn : j = n := by omega
    subst hjn
    rw [sliceLoop, if_neg hstop]
  | succ d ih =>
    intro j fuel hj hfuel
    obtain ⟨f, rfl⟩ : ∃ f, fuel = f + 1 := ⟨fuel - 1, by omega⟩
    rw [sliceLoop_step codec input w dy c files f j (hguard j (by omega)) (hsave j (by omega))]
    exact ih (j + 1) f (by omega) (by omega)

/-- A run of the loop from segment j in which the saves of segments j .. k-1 succeed and the
save of segment k fails. -/
theorem sliceLoop_fail {ε : Type} (codec : Codec ε) (input : SliceImageInput) (w dy c : Int)
    (files : List String) (k : Nat) (err : ε)
    (hguard : ∀ i : Nat, i ≤ k → (i : Int) * c ≤ dy - c)
    (hsave : ∀ i : Nat, i < k →
      codec.saveImage (segmentsTrace codec input w c i ++ [segmentCrop w c i])
        (segmentPath codec input (i * c)) = none)
    (hfail : codec.saveImage (segmentsTrace codec input w c k ++ [segmentCrop w c k])
      (segmentPath codec input (k * c)) = some err) :
    ∀ (d j fuel : Nat), j + d = k → d < fuel →
      sliceLoop codec input w dy c fuel (j * c)
          (files ++ segmentsPaths codec input c j) (segmentsTrace codec input w c j) =
        some { status := .failed err, OutputFiles := files ++ segmentsPaths codec input c k,
               trace := segmentsTrace codec input w c k ++
                 [segmentCrop w c k, Effect.save (segmentPath codec input (k * c))] } := by
  intro d
  induction d with
  | zero =>
    intro j fuel hj hfuel
    obtain ⟨f, rfl⟩ : ∃ f, fuel = f + 1 := ⟨fuel - 1, by omega⟩
    have hjk : j = k := by omega
    subst hjk
    rw [sliceLoop, if_pos (hguard j (le_refl j))]
    simp only [segmentCrop, segmentPath] at hfail
    simp only [hfail]
    simp [segmentCrop, segmentPath, List.append_assoc]
  | succ d ih =>
    intro j fuel hj hfuel
    obtain ⟨f, rfl⟩ : ∃ f, fuel = f + 1 := ⟨fuel - 1, by omega⟩
    rw [sliceLoop_step codec input w dy c files f j (hguard j (by omega)) (hsave j (by omega))]
    exact ih (j + 1) f (by omega) (by omega)

/-- C2. For every source height H ≥ 0 and crop height c ≥ 1, when the save of every segment
succeeds SliceImage returns nil having cropped and saved exactly floor(H / c) segments, the
k-th being the rectangle [0, k*c, sourceWidth, k*c + c] saved under the name for y = k*c and
appended to OutputFiles in increasing order of y; no segment reaches into the last H mod c
rows. -/
theorem C2_segments {ε : Type} (codec : Codec ε) (input : SliceImageInput) (ori : Image)
    (c : Int) (fuel : Nat)
    (hopen : codec.openImage input.SourcePath = .ok ori)
    (hH : 0 ≤ ori.Dy)
    (hc : cropHeight ori.Dx input.AspectRatio input.MaxHeight input.MinHeight = c)
    (hc1 : 1 ≤ c)
    (hsave : ∀ k : Nat, k < (ori.Dy / c).toNat →
      codec.saveImage (segmentsTrace codec input ori.Dx c k ++ [segmentCrop ori.Dx c k])
        (segmentPath codec input (k * c)) = none)
    (hfuel : (ori.Dy / c).toNat < fuel) :
    SliceImage codec fuel input =
        some { status := .ok,
               OutputFiles := input.OutputFiles ++ segmentsPaths codec input c (ori.Dy / c).toNat,
               trace := segmentsTrace codec input ori.Dx c (ori.Dy / c).toNat } ∧
      (segmentsPaths codec input c (ori.Dy / c).toNat).length = (ori.Dy / c).toNat ∧
      ((ori.Dy / c).toNat : Int) = ⌊(ori.Dy : ℚ) / (c : ℚ)⌋ ∧
      (∀ k : Nat, 0 ≤ ori.Dx →
        segmentCrop ori.Dx c k =
          Effect.crop { minX := 0, minY := k * c, maxX := ori.Dx, maxY := k * c + c }) ∧
      (∀ k : Nat, k < (ori.Dy / c).toNat → (k : Int) * c + c ≤ ori.Dy - ori.Dy % c) := by
  have hcpos : 0 < c := by omega
  have hq : 0 ≤ ori.Dy / c := Int.ediv_nonneg hH hcpos.le
  have hN : ((ori.Dy / c).toNat : Int) = ori.Dy / c := Int.toNat_of_nonneg hq
  have hguard : ∀ i : Nat, i < (ori.Dy / c).toNat → (i : Int) * c ≤ ori.Dy - c := by
    intro i hi
    have h1 : (i : Int) + 1 ≤ ori.Dy / c := by omega
    have h2 : ((i : Int) + 1) * c ≤ ori.Dy := (Int.le_ediv_iff_mul_le hcpos).mp h1
    linarith
  have hstop : ¬ (((ori.Dy / c).toNat : Int) * c ≤ ori.Dy - c) := by
    intro hcontra
    have h2 : (ori.Dy / c + 1) * c ≤ ori.Dy := by rw [hN] at hcontra; linarith
    have h3 : ori.Dy / c + 1 ≤ ori.Dy / c := (Int.le_ediv_iff_mul_le hcpos).mpr h2
    omega
  refine ⟨?_, ?_, ?_, ?_, ?_⟩
  · unfold SliceImage
    rw [hopen]
    dsimp only
    rw [hc]
    have h := sliceLoop_run codec input ori.Dx ori.Dy c input.OutputFiles (ori.Dy / c).toNat
      hguard hstop hsave (ori.Dy / c).toNat 0 fuel (by omega) hfuel
    simpa [segmentsPaths, segmentsTrace] using h
  · unfold segmentsPaths
    rw [List.length_map, List.length_range]
  · rw [hN]
    obtain ⟨n, hn⟩ := Int.eq_ofNat_of_zero_le hcpos.le
    rw [hn]
    exact (Rat.floor_intCast_div_natCast ori.Dy n).symm
  · intro k hW
    have h1 : ¬ ((0 : Int) > ori.Dx) := by omega
    have h2 : ¬ ((k : Int) * c > (k : Int) * c + c) := by omega
    simp [segmentCrop, imageRect, h1, h2]
  · intro k hk
    have h1 : (k : Int) + 1 ≤ ori.Dy / c := by omega
    have h2 : ((k : Int) + 1) * c ≤ (ori.Dy / c) * c := Int.mul_le_mul_of_nonneg_right h1 hcpos.le
    have h3 : ori.Dy / c * c = ori.Dy - ori.Dy % c := by
      have := Int.emod_add_ediv ori.Dy c
      linarith [mul_comm c (ori.Dy / c)]
    linarith

/-- C2, witness: with crop height 250 a source 1000 rows tall gives the four segments at
y = 0, 250, 500, 750, and a source 900 rows tall the three at y = 0, 250, 500. -/
theorem C2_segments_witness :
    SliceImage (demoCodec (Image.ofSize 400 1000)) 5 demoSlice =
        some { status := .ok,
               OutputFiles := ["out/0.png", "out/250.png", "out/500.png", "out/750.png"],
               trace :=
                [Effect.crop { minX := 0, minY := 0, maxX := 400, maxY := 250 },
                  Effect.save "out/0.png",
                  Effect.crop { minX := 0, minY := 250, maxX := 400, maxY := 500 },
                  Effect.save "out/250.png",
                  Effect.crop { minX := 0, minY := 500, maxX := 400, maxY := 750 },
                  Effect.save "out/500.png",
                  Effect.crop { minX := 0, minY := 750, maxX := 400, maxY := 1000 },
                  Effect.save "out/750.png"] } ∧
      SliceImage (demoCodec (Image.ofSize 400 900)) 5 demoSlice =
        some { status := .ok,
               OutputFiles := ["out/0.png", "out/250.png", "out/500.png"],
               trace :=
                [Effect.crop { minX := 0, minY := 0, maxX := 400, maxY := 250 },
                  Effect.save "out/0.png",
                  Effect.crop { minX := 0, minY := 250, maxX := 400, maxY := 500 },
                  Effect.save "out/250.png",
                  Effect.crop { minX := 0, minY := 500, maxX := 400, maxY := 750 },
                  Effect.save "out/500.png"] } ∧
      (900 : Int) % 250 = 150 :=
  ⟨(C2_segments (demoCodec (Image.ofSize 400 1000)) demoSlice (Image.ofSize 400 1000) 250 5
      rfl (by decide) (by decide) (by decide) (fun _ _ => rfl) (by decide)).1,
    (C2_segments (demoCodec (Image.ofSize 400 900)) demoSlice (Image.ofSize 400 900) 250 5
      rfl (by decide) (by decide) (by decide) (fun _ _ => rfl) (by decide)).1,
    by decide⟩

/-- C3. If the decode of the source fails, SliceImage returns that error with OutputFiles
unchanged and an empty trace. If the loop reaches segment k, the saves of segments 0 .. k-1
succeed and the save of segment k fails, SliceImage returns that error, its trace ends with the
failed save, and OutputFiles is its value on entry followed by the paths of segments 0 .. k-1
in order. -/
theorem C3_first_failure {ε : Type} (codec : Codec ε) (input : SliceImageInput) (fuel : Nat) :
    (∀ err : ε, codec.openImage input.SourcePath = .error err →
      SliceImage codec fuel input =
        some { status := .failed err, OutputFiles := input.OutputFiles, trace := [] }) ∧
    (∀ (ori : Image) (c : Int) (k : Nat) (err : ε),
      codec.openImage input.SourcePath = .ok ori →
      cropHeight ori.Dx input.AspectRatio input.MaxHeight input.MinHeight = c →
      (∀ i : Nat, i ≤ k → (i : Int) * c ≤ ori.Dy - c) →
      (∀ i : Nat, i < k →
        codec.saveImage (segmentsTrace codec input ori.Dx c i ++ [segmentCrop ori.Dx c i])
          (segmentPath codec input (i * c)) = none) →
      codec.saveImage (segmentsTrace codec input ori.Dx c k ++ [segmentCrop ori.Dx c k])
        (segmentPath codec input (k * c)) = some err →
      k < fuel →
      SliceImage codec fuel input =
        some { status := .failed err,
               OutputFiles := input.OutputFiles ++ segmentsPaths codec input c k,
               trace := segmentsTrace codec input ori.Dx c k ++
                 [segmentCrop ori.Dx c k, Effect.save (segmentPath codec input (k * c))] }) := by
  constructor
  · intro err hopen
    unfold SliceImage
    rw [hopen]
  · intro ori c k err hopen hc hguard hsave hfail hfuel
    unfold SliceImage
    rw [hopen]
    dsimp only
    rw [hc]
    have h := sliceLoop_fail codec input ori.Dx ori.Dy c input.OutputFiles k err
      hguard hsave hfail k 0 fuel (by omega) hfuel
    simpa [segmentsPaths, segmentsTrace] using h

/-- C3, witness: the decoder fails; and, on a 400 x 1000 source with crop height 250, the
encoder refuses the third segment: two paths are appended and the fourth segment is never
cropped or saved. -/
theorem C3_first_failure_witness :
    SliceImage unreadableCodec 5 demoSlice =
        some { status := .failed "decode failed", OutputFiles := [], trace := [] } ∧
      SliceImage (failingCodec (Image.ofSize 400 1000) "out/500.png") 5 demoSlice =
        some { status := .failed "write failed",
               OutputFiles := ["out/0.png", "out/250.png"],
               trace :=
                [Effect.crop { minX := 0, minY := 0, maxX := 400, maxY := 250 },
                  Effect.save "out/0.png",
                  Effect.crop { minX := 0, minY := 250, maxX := 400, maxY := 500 },
                  Effect.save "out/250.png",
                  Effect.crop { minX := 0, minY := 500, maxX := 400, maxY := 750 },
                  Effect.save "out/500.png"] } :=
  ⟨(C3_first_failure unreadableCodec demoSlice 5).1 "decode failed" rfl,
    (C3_first_failure (failingCodec (Image.ofSize 400 1000) "out/500.png") demoSlice 5).2
      (Image.ofSize 400 1000) 250 2 "write failed" rfl (by decide) (by decide) (by decide)
      (by decide) (by decide)⟩

/-! ## the sizes passed to the resampler -/

/-- C9 (amended). For every source of positive width and height and every positive
constraint, the sizes passed to the resampler are not negative and the constrained edge is at
least 1. ScaleDownImageByWidth, when it resizes a source with sides below 2^53, passes the
target width and a height ≥ 0 that is ≥ 1 when sourceW ≤ sourceH * targetW.
ScaleUpImageByResolution, when sourceH * maxW < 2^63, passes w ≥ 0 and h ≥ 0 with w = maxW or
h = maxH, and both are ≥ 1 when sourceW ≤ sourceH * maxW and sourceH ≤ sourceW * maxH. -/
theorem C9_target_dimensions {ε : Type} (codec : Codec ε) :
    (∀ (input : ScaleDownImageByWidthInput) (img : Image),
      codec.openImage input.SourcePath = .ok img →
      0 < img.Dx → 0 < img.Dy → 0 < input.Width → input.Width < img.Dx →
      img.Dx < 2 ^ 53 → img.Dy < 2 ^ 53 →
      ∃ h : Int,
        ScaleDownImageByWidth codec input =
          (Status.ofError (codec.saveImage [Effect.resize input.Width h] input.OutputPath),
            [Effect.resize input.Width h, Effect.save input.OutputPath]) ∧
        1 ≤ input.Width ∧ 0 ≤ h ∧ (img.Dx ≤ img.Dy * input.Width → 1 ≤ h)) ∧
    (∀ (input : ScaleUpImageByResolutionInput) (img : Image),
      codec.openImage input.SourcePath = .ok img →
      0 < img.Dx → 0 < img.Dy → 0 < input.MaxWidth → 0 < input.MaxHeight →
      img.Dy * input.MaxWidth < (2 : Int) ^ 63 →
      ∃ w h : Int,
        ScaleUpImageByResolution codec input =
          (Status.ofError (codec.saveImage [Effect.resize w h] input.OutputPath),
            [Effect.resize w h, Effect.save input.OutputPath]) ∧
        0 ≤ w ∧ 0 ≤ h ∧ (w = input.MaxWidth ∨ h = input.MaxHeight) ∧
        (img.Dx ≤ img.Dy * input.MaxWidth → img.Dy ≤ img.Dx * input.MaxHeight →
          1 ≤ w ∧ 1 ≤ h)) := by
  constructor
  · intro input img hopen hW hH hT hTW hWb hHb
    obtain ⟨h0, h1⟩ := scaleDown_height img.Dy input.Width img.Dx (by omega) (by omega) hTW
      hHb hWb
    refine ⟨_, ?_, by omega, h0, h1⟩
    unfold ScaleDownImageByWidth
    rw [hopen]
    dsimp only
    rw [if_neg (by omega)]
    rfl
  · intro input img hopen hW hH hmw hmh hb
    have hh := scaleUp_newHeight img.Dx img.Dy input.MaxWidth hW hH hmw hb
    have hn1 : 0 ≤ img.Dy * input.MaxWidth / img.Dx := Int.ediv_nonneg (by positivity) hW.le
    have hn2 : 0 ≤ img.Dx * input.MaxHeight / img.Dy := Int.ediv_nonneg (by positivity) hH.le
    unfold ScaleUpImageByResolution
    rw [hopen]
    dsimp only
    rw [if_neg hW.ne', hh]
    by_cases hle : img.Dy * input.MaxWidth / img.Dx ≤ input.MaxHeight
    · refine ⟨input.MaxWidth, img.Dy * input.MaxWidth / img.Dx, ?_, hmw.le, hn1, Or.inl rfl, ?_⟩
      · rw [if_neg (by omega)]
        rfl
      · intro ha _
        have : 1 ≤ img.Dy * input.MaxWidth / img.Dx :=
          (Int.le_ediv_iff_mul_le hW).mpr (by linarith)
        exact ⟨by omega, this⟩
    · have hw := scaleUp_newWidth img.Dx img.Dy input.MaxWidth input.MaxHeight hW hH hmh hb
        (by omega)
      refine ⟨img.Dx * input.MaxHeight / img.Dy, input.MaxHeight, ?_, hn2, hmh.le, Or.inr rfl,
        ?_⟩
      · rw [if_pos (by omega), if_neg hH.ne', hw]
        rfl
      · intro _ hb
        have : 1 ≤ img.Dx * input.MaxHeight / img.Dy :=
          (Int.le_ediv_iff_mul_le hH).mpr (by linarith)
        exact ⟨this, by omega⟩

/-- C9, witness: an 800 x 600 source scaled down to width 400, and a 2000 x 1000 source
scaled into the box 1000 x 1000. -/
theorem C9_target_dimensions_witness :
    (∃ h : Int,
      ScaleDownImageByWidth (demoCodec (Image.ofSize 800 600))
          { SourcePath := "in.png", OutputPath := "out.png", Width := 400 } =
        (Status.ofError ((demoCodec (Image.ofSize 800 600)).saveImage [Effect.resize 400 h]
          "out.png"), [Effect.resize 400 h, Effect.save "out.png"]) ∧
      (1 : Int) ≤ 400 ∧ 0 ≤ h ∧ ((800 : Int) ≤ 600 * 400 → 1 ≤ h)) ∧
    (∃ w h : Int,
      ScaleUpImageByResolution (demoCodec (Image.ofSize 2000 1000))
          { SourcePath := "in.png", OutputPath := "out.png", MaxWidth := 1000,
            MaxHeight := 1000 } =
        (Status.ofError ((demoCodec (Image.ofSize 2000 1000)).saveImage [Effect.resize w h]
          "out.png"), [Effect.resize w h, Effect.save "out.png"]) ∧
      0 ≤ w ∧ 0 ≤ h ∧ (w = 1000 ∨ h = 1000) ∧
      ((2000 : Int) ≤ 1000 * 1000 → (1000 : Int) ≤ 2000 * 1000 → 1 ≤ w ∧ 1 ≤ h)) :=
  ⟨(C9_target_dimensions (demoCodec (Image.ofSize 800 600))).1
      { SourcePath := "in.png", OutputPath := "out.png", Width := 400 } (Image.ofSize 800 600)
      rfl (by decide) (by decide) (by decide) (by decide) (by decide) (by decide),
    (C9_target_dimensions (demoCodec (Image.ofSize 2000 1000))).2
      { SourcePath := "in.png", OutputPath := "out.png", MaxWidth := 1000, MaxHeight := 1000 }
      (Image.ofSize 2000 1000) rfl (by decide) (by decide) (by decide) (by decide) (by decide)⟩

set_option maxRecDepth 100000

/-- C9, counterexample: a source 3 wide and 1 high. ScaleDownImageByWidth with target width 1
asks the resampler for 1 x 0, and so does ScaleUpImageByResolution with the box 1 x 1; a source
1 wide and 3 high in the box 1 x 1 gives 0 x 1, and in the box 2^62 x 2^62 the product
3 * 2^62 wraps to -2^62, which is the height passed. -/
theorem C9_counterexample :
    ScaleDownImageByWidth (demoCodec (Image.ofSize 3 1))
        { SourcePath := "in.png", OutputPath := "out.png", Width := 1 } =
      (.ok, [Effect.resize 1 0, Effect.save "out.png"]) ∧
    ScaleUpImageByResolution (demoCodec (Image.ofSize 3 1))
        { SourcePath := "in.png", OutputPath := "out.png", MaxWidth := 1, MaxHeight := 1 } =
      (.ok, [Effect.resize 1 0, Effect.save "out.png"]) ∧
    ScaleUpImageByResolution (demoCodec (Image.ofSize 1 3))
        { SourcePath := "in.png", OutputPath := "out.png", MaxWidth := 1, MaxHeight := 1 } =
      (.ok, [Effect.resize 0 1, Effect.save "out.png"]) ∧
    ScaleUpImageByResolution (demoCodec (Image.ofSize 1 3))
        { SourcePath := "in.png", OutputPath := "out.png", MaxWidth := 2 ^ 62,
          MaxHeight := 2 ^ 62 } =
      (.ok, [Effect.resize (2 ^ 62) (-(2 ^ 62)), Effect.save "out.png"]) := by
  decide

/-! ## MergeImagesToVideos -/

/-- C10 (amended). For every duration map with N entries, the command MergeImagesToVideos
builds is the word ffmpeg and a space, then one clause "-loop 1 -t d -i path " per entry (d the
duration rendered by %.2f), N clauses in the iteration order of the map, then a space and
-filter_complex 'concat=n=N:v=1:a=0[v]' -map '[v]' -c:v libx264 -pix_fmt yuv420p outputPath -y,
with single quotes, where N is the number of clauses emitted. -/
theorem C10_command (input : MergeImagesToVideosInput) :
    MergeImagesToVideos input =
        "ffmpeg " ++
          String.join (input.ImageDurations.map (fun entry =>
            "-loop 1 -t " ++ entry.2.format2 ++ " -i " ++ entry.1 ++ " ")) ++
          " -filter_complex 'concat=n=" ++
          toString (input.ImageDurations.map (fun entry =>
            "-loop 1 -t " ++ entry.2.format2 ++ " -i " ++ entry.1 ++ " ")).length ++
          ":v=1:a=0[v]' -map '[v]' -c:v libx264 -pix_fmt yuv420p " ++ input.OutputPath ++ " -y" ∧
      (input.ImageDurations.map (fun entry =>
        "-loop 1 -t " ++ entry.2.format2 ++ " -i " ++ entry.1 ++ " ")).length =
        input.ImageDurations.length := by
  refine ⟨?_, List.length_map _ _⟩
  unfold MergeImagesToVideos cmdBuffer
  rw [List.length_map, String.join, List.foldl_map]
  rfl

/-- C10, counterexample: for the map with the single entry a.jpg, 3 seconds, the command is
the string below; it holds no double quote, so it cannot contain
-filter_complex "concat=n=1:v=1:a=0[v]" -map "[v]". -/
theorem C10_counterexample :
    MergeImagesToVideos demoVideo =
        "ffmpeg -loop 1 -t 3.00 -i a.jpg  -filter_complex 'concat=n=1:v=1:a=0[v]' -map '[v]' -c:v libx264 -pix_fmt yuv420p out.mp4 -y" ∧
      Char.ofNat 34 ∉ (MergeImagesToVideos demoVideo).toList := by
  decide

end Multimedia
